import Mathlib

/-!
Shallow embedding of selected parts of the casbin core (Go) and proofs of
specification claims about them.  Strings are modelled as `List Char` where
character-level behaviour matters, and as Lean `String` elsewhere; Go byte
indices coincide with character indices on the ASCII inputs these operators
are designed for.
-/

set_option maxHeartbeats 1000000

namespace Casbin

/-! ## util/builtin_operators.go : KeyMatch family -/

/-- Embeds `KeyMatch` (builtin_operators.go): `key2` may contain a `*`;
`strings.Index` is the index of the first `*`, slicing is prefix taking. -/
def KeyMatch (key1 key2 : List Char) : Bool :=
  match key2.findIdx? (· == '*') with
  | none => key1 == key2
  | some i =>
    if key1.length > i then key1.take i == key2.take i
    else key1 == key2.take i

/-- Embeds `KeyGet` (builtin_operators.go): returns the part of `key1`
matched by the `*` of `key2`, or the empty string. -/
def KeyGet (key1 key2 : List Char) : List Char :=
  match key2.findIdx? (· == '*') with
  | none => []
  | some i =>
    if key1.length > i then
      if key1.take i == key2.take i then key1.drop i else []
    else []

/-! ## model/assertion.go : role-link building

The role managers (`rbac.RoleManager`, `rbac.ConditionalRoleManager`) are
external interfaces; they are modelled as explicit states recording, in call
order, the arguments of every `AddLink` / `SetLinkConditionFuncParams` /
`SetDomainLinkConditionFuncParams` call.  `AddLink` never fails in this model,
so the only error sources are the arity checks of assertion.go itself. -/

inductive PolicyOp where
  | PolicyAdd
  | PolicyRemove
deriving DecidableEq

/-- Model of the parts of `model.Assertion` the claims touch. -/
structure Assertion where
  key : String
  value : String
  tokens : List String
  policy : List (List String)
  policyMap : List (List String × Nat)
deriving DecidableEq

/-- `strings.Count(ast.Value, "_")`: number of `_` characters in the value. -/
def countUnderscore (v : String) : Nat := v.data.count '_'

/-- Non-conditional role-manager state: the `AddLink` edges in call order. -/
abbrev RMState := List (String × String × List String)

/-- `rm.AddLink(a, b, ds...)` recorded on the state. -/
def addLink (a b : String) (ds : List String) (rm : RMState) : RMState :=
  rm ++ [(a, b, ds)]

/-- `rm.DeleteLink(a, b, ds...)`: the edge is removed from the state. -/
def deleteLink (a b : String) (ds : List String) (rm : RMState) : RMState :=
  rm.filter (fun e => e ≠ (a, b, ds))

/-- The rule loop of `buildIncrementalRoleLinks`: short rules are an error,
long rules are truncated to `count` fields before the `AddLink`/`DeleteLink`. -/
def incRoleLinksLoop (rm : RMState) (op : PolicyOp) (count : Nat) :
    List (List String) → Except String RMState
  | [] => .ok rm
  | rule :: rest =>
    if rule.length < count then
      .error "grouping policy elements do not meet role definition"
    else
      let r := if rule.length > count then rule.take count else rule
      let rm' := match op with
        | .PolicyAdd => addLink (r.getD 0 "") (r.getD 1 "") (r.drop 2) rm
        | .PolicyRemove => deleteLink (r.getD 0 "") (r.getD 1 "") (r.drop 2) rm
      incRoleLinksLoop rm' op count rest

/-- Embeds `Assertion.buildIncrementalRoleLinks` (assertion.go). -/
def buildIncrementalRoleLinks (ast : Assertion) (rm : RMState) (op : PolicyOp)
    (rules : List (List String)) : Except String RMState :=
  if countUnderscore ast.value < 2 then
    .error "the number of \"_\" in role definition should be at least 2"
  else incRoleLinksLoop rm op (countUnderscore ast.value) rules

/-- The rule loop of `buildRoleLinks`. -/
def roleLinksLoop (rm : RMState) (count : Nat) :
    List (List String) → Except String RMState
  | [] => .ok rm
  | rule :: rest =>
    if rule.length < count then
      .error "grouping policy elements do not meet role definition"
    else
      let r := if rule.length > count then rule.take count else rule
      roleLinksLoop (addLink (r.getD 0 "") (r.getD 1 "") (r.drop 2) rm) count rest

/-- Embeds `Assertion.buildRoleLinks` (assertion.go). -/
def buildRoleLinks (ast : Assertion) (rm : RMState) : Except String RMState :=
  if countUnderscore ast.value < 2 then
    .error "the number of \"_\" in role definition should be at least 2"
  else roleLinksLoop rm (countUnderscore ast.value) ast.policy

/-- Conditional role-manager state: `AddLink` edges plus the parameter
vectors recorded by the two condition-parameter setters, in call order. -/
structure CondRMState where
  links : List (String × String × List String)
  linkParams : List ((String × String) × List String)
  domainLinkParams : List ((String × String × String) × List String)
deriving DecidableEq

/-- `condRM.AddLink(a, b, ds...)` recorded on the state. -/
def condAddLink (a b : String) (ds : List String) (s : CondRMState) : CondRMState :=
  { s with links := s.links ++ [(a, b, ds)] }

/-- `condRM.SetLinkConditionFuncParams(a, b, ps...)` recorded on the state. -/
def setLinkConditionFuncParams (a b : String) (ps : List String)
    (s : CondRMState) : CondRMState :=
  { s with linkParams := s.linkParams ++ [((a, b), ps)] }

/-- `condRM.SetDomainLinkConditionFuncParams(a, b, d, ps...)` recorded. -/
def setDomainLinkConditionFuncParams (a b d : String) (ps : List String)
    (s : CondRMState) : CondRMState :=
  { s with domainLinkParams := s.domainLinkParams ++ [((a, b, d), ps)] }

/-- Embeds `Assertion.addConditionalRoleLink` (assertion.go): a domainless or
domain-qualified `AddLink` followed by the matching parameter setter with the
fields of `rule` from position `len(ast.Tokens)` onward. -/
def addConditionalRoleLink (ast : Assertion) (rule domainRule : List String)
    (s : CondRMState) : CondRMState :=
  if domainRule.isEmpty then
    setLinkConditionFuncParams (rule.getD 0 "") (rule.getD 1 "")
      (rule.drop ast.tokens.length)
      (condAddLink (rule.getD 0 "") (rule.getD 1 "") [] s)
  else
    let domain := domainRule.getD 0 ""
    setDomainLinkConditionFuncParams (rule.getD 0 "") (rule.getD 1 "") domain
      (rule.drop ast.tokens.length)
      (condAddLink (rule.getD 0 "") (rule.getD 1 "") [domain] s)

/-- The rule loop of `buildConditionalRoleLinks`: `domainRule` is the slice
`rule[2:len(ast.Tokens)]` of the truncated rule. -/
def condRoleLinksLoop (ast : Assertion) (s : CondRMState) (count : Nat) :
    List (List String) → Except String CondRMState
  | [] => .ok s
  | rule :: rest =>
    if rule.length < count then
      .error "grouping policy elements do not meet role definition"
    else
      let r := if rule.length > count then rule.take count else rule
      let domainRule := (r.drop 2).take (ast.tokens.length - 2)
      condRoleLinksLoop ast (addConditionalRoleLink ast r domainRule s) count rest

/-- Embeds `Assertion.buildConditionalRoleLinks` (assertion.go). -/
def buildConditionalRoleLinks (ast : Assertion) (s : CondRMState) :
    Except String CondRMState :=
  if countUnderscore ast.value < 2 then
    .error "the number of \"_\" in role definition should be at least 2"
  else condRoleLinksLoop ast s (countUnderscore ast.value) ast.policy

/-- `Except` success test. -/
def isOk : Except String α → Bool
  | .ok _ => true
  | .error _ => false

lemma incRoleLinksLoop_isOk (op : PolicyOp) (count : Nat)
    (rules : List (List String)) :
    ∀ rm, isOk (incRoleLinksLoop rm op count rules) = true ↔
      ∀ r ∈ rules, count ≤ r.length := by
  induction rules with
  | nil => intro rm; simp [incRoleLinksLoop, isOk]
  | cons rule rest ih =>
    intro rm
    by_cases h : rule.length < count
    · simp only [incRoleLinksLoop, if_pos h, isOk]
      constructor
      · intro hF; cases hF
      · intro hall; exact absurd (hall rule (by simp)) (by omega)
    · simp only [incRoleLinksLoop, if_neg h]
      rw [ih]
      have h' : count ≤ rule.length := Nat.not_lt.mp h
      simp [List.forall_mem_cons, h']

lemma truncate_if_eq (r : List String) (count : Nat) (h : count ≤ r.length) :
    (if r.length > count then r.take count else r) = r.take count := by
  rcases Nat.lt_or_ge count r.length with hlt | hge
  · simp [hlt]
  · have hlen : r.length = count := Nat.le_antisymm hge h
    simp [hlen, List.take_of_length_le (Nat.le_of_eq hlen)]

lemma incRoleLinksLoop_trunc (op : PolicyOp) (count : Nat)
    (rules : List (List String)) :
    ∀ rm, incRoleLinksLoop rm op count (rules.map (fun r => r.take count))
      = incRoleLinksLoop rm op count rules := by
  induction rules with
  | nil => intro rm; rfl
  | cons rule rest ih =>
    intro rm
    by_cases h : rule.length < count
    · have h2 : (rule.take count).length < count := by
        simp [List.length_take]; omega
      simp [incRoleLinksLoop, h, h2]
    · have h' : count ≤ rule.length := Nat.not_lt.mp h
      have h2 : ¬ (rule.take count).length < count := by
        simp [List.length_take]; omega
      have e1 : (if (rule.take count).length > count
          then (rule.take count).take count else rule.take count)
          = rule.take count := by
        simp [List.length_take]
      simp only [List.map_cons, incRoleLinksLoop, if_neg h, if_neg h2, e1,
        truncate_if_eq rule count h']
      exact ih _

lemma roleLinksLoop_eq_inc (count : Nat) (rules : List (List String)) :
    ∀ rm, roleLinksLoop rm count rules
      = incRoleLinksLoop rm .PolicyAdd count rules := by
  induction rules with
  | nil => intro rm; rfl
  | cons rule rest ih =>
    intro rm
    by_cases h : rule.length < count
    · simp [roleLinksLoop, incRoleLinksLoop, h]
    · simp only [roleLinksLoop, incRoleLinksLoop, if_neg h]
      exact ih _

/-- C1: for every `g`-assertion, `buildRoleLinks` and
`buildIncrementalRoleLinks` succeed exactly when the assertion's value has at
least two `_` positions and every rule has at least that many fields; rules
longer than the `_` count are used only up to the first `count` fields, so
truncating every rule to `count` fields leaves the result unchanged. -/
theorem buildRoleLinks_arity_and_truncation (ast : Assertion) (rm : RMState)
    (op : PolicyOp) (rules : List (List String)) :
    (isOk (buildIncrementalRoleLinks ast rm op rules) = true ↔
      2 ≤ countUnderscore ast.value ∧
        ∀ r ∈ rules, countUnderscore ast.value ≤ r.length)
    ∧ (isOk (buildRoleLinks ast rm) = true ↔
      2 ≤ countUnderscore ast.value ∧
        ∀ r ∈ ast.policy, countUnderscore ast.value ≤ r.length)
    ∧ buildIncrementalRoleLinks ast rm op
        (rules.map (fun r => r.take (countUnderscore ast.value)))
        = buildIncrementalRoleLinks ast rm op rules
    ∧ buildRoleLinks { ast with policy := (ast.policy.map
        (fun r => r.take (countUnderscore ast.value))) } rm
        = buildRoleLinks ast rm := by
  by_cases hc : countUnderscore ast.value < 2
  · refine ⟨?_, ?_, ?_, ?_⟩ <;>
      simp [buildIncrementalRoleLinks, buildRoleLinks, hc, isOk]
  · have hc' : 2 ≤ countUnderscore ast.value := Nat.not_lt.mp hc
    refine ⟨?_, ?_, ?_, ?_⟩
    · simp only [buildIncrementalRoleLinks, if_neg hc]
      rw [incRoleLinksLoop_isOk]
      simp [hc']
    · simp only [buildRoleLinks, if_neg hc]
      rw [roleLinksLoop_eq_inc, incRoleLinksLoop_isOk]
      simp [hc']
    · simp only [buildIncrementalRoleLinks, if_neg hc]
      exact incRoleLinksLoop_trunc op _ rules rm
    · simp only [buildRoleLinks, if_neg hc]
      rw [roleLinksLoop_eq_inc, roleLinksLoop_eq_inc]
      exact incRoleLinksLoop_trunc .PolicyAdd _ ast.policy rm

lemma roleLinksLoop_ok (count : Nat) (rules : List (List String))
    (hlen : ∀ r ∈ rules, count ≤ r.length) :
    ∀ rm, roleLinksLoop rm count rules = .ok (rm ++ rules.map (fun r =>
      ((r.take count).getD 0 "", (r.take count).getD 1 "",
        (r.take count).drop 2))) := by
  induction rules with
  | nil => intro rm; simp [roleLinksLoop]
  | cons rule rest ih =>
    intro rm
    have hr : count ≤ rule.length := hlen rule (by simp)
    have hnl : ¬ rule.length < count := Nat.not_lt.mpr hr
    simp only [roleLinksLoop, if_neg hnl, truncate_if_eq rule count hr]
    rw [ih (fun r hmem => hlen r (by simp [hmem]))]
    simp [addLink]

lemma condLoop_ok (ast : Assertion) (count : Nat)
    (h2 : 2 ≤ ast.tokens.length) (hct : ast.tokens.length ≤ count)
    (rules : List (List String)) (hlen : ∀ r ∈ rules, count ≤ r.length) :
    ∀ s : CondRMState, condRoleLinksLoop ast s count rules = .ok
      { links := s.links ++ rules.map (fun r =>
          ((r.take count).getD 0 "", (r.take count).getD 1 "",
            if 2 < ast.tokens.length then [(r.take count).getD 2 ""] else []))
        linkParams := s.linkParams ++ (if 2 < ast.tokens.length then [] else
          rules.map (fun r => (((r.take count).getD 0 "", (r.take count).getD 1 ""),
            (r.take count).drop ast.tokens.length)))
        domainLinkParams := s.domainLinkParams ++ (if 2 < ast.tokens.length then
          rules.map (fun r => (((r.take count).getD 0 "", (r.take count).getD 1 "",
            (r.take count).getD 2 ""), (r.take count).drop ast.tokens.length))
          else []) } := by
  induction rules with
  | nil => intro s; simp [condRoleLinksLoop]
  | cons rule rest ih =>
    intro s
    have hr : count ≤ rule.length := hlen rule (by simp)
    have hnl : ¬ rule.length < count := Nat.not_lt.mpr hr
    have htlen : (rule.take count).length = count := by
      simp [List.length_take]; omega
    simp only [condRoleLinksLoop, if_neg hnl, truncate_if_eq rule count hr]
    rw [ih (fun r hmem => hlen r (by simp [hmem]))]
    by_cases htok : 2 < ast.tokens.length
    · obtain ⟨x, y, z, t', hts⟩ :
          ∃ x y z t', rule.take count = x :: y :: z :: t' := by
        match h : rule.take count with
        | [] => rw [h] at htlen; simp at htlen; omega
        | [x] => rw [h] at htlen; simp at htlen; omega
        | [x, y] => rw [h] at htlen; simp at htlen; omega
        | x :: y :: z :: t' => exact ⟨x, y, z, t', rfl⟩
      have hdr : ((rule.take count).drop 2).take (ast.tokens.length - 2)
          = z :: (t'.take (ast.tokens.length - 3)) := by
        rw [hts]
        have : ast.tokens.length - 2 = (ast.tokens.length - 3) + 1 := by omega
        simp [this]
      rw [hts] at hdr ⊢
      simp only [addConditionalRoleLink, hdr, List.isEmpty_cons,
        setDomainLinkConditionFuncParams, condAddLink, List.getD]
      simp [htok, List.append_assoc]
      simp [hts]
    · have htok2 : ast.tokens.length = 2 := by omega
      have hdr : ((rule.take count).drop 2).take (ast.tokens.length - 2) = [] := by
        simp [htok2]
      simp only [addConditionalRoleLink, hdr, List.isEmpty_nil,
        setLinkConditionFuncParams, condAddLink]
      simp [htok, List.append_assoc]

/-- C2: for a conditional `g`-assertion (at least two tokens, token count at
most the `_` count, rules long enough), building role links adds for every
rule one edge `rule[0] → rule[1]`, domain-qualified by `rule[2]` exactly when
the slice `rule[2:len(Tokens)]` of the truncated rule is non-empty, and passes
exactly the truncated rule's fields from position `len(Tokens)` onward as the
link-condition parameters, through `SetDomainLinkConditionFuncParams` in the
domain case and `SetLinkConditionFuncParams` otherwise; the non-conditional
`buildRoleLinks` hands `AddLink` only fields of `rule[:count]`, so it never
receives those trailing parameter fields. -/
theorem buildConditionalRoleLinks_edges_and_params (ast : Assertion)
    (s : CondRMState) (h2 : 2 ≤ ast.tokens.length)
    (hct : ast.tokens.length ≤ countUnderscore ast.value)
    (hlen : ∀ r ∈ ast.policy, countUnderscore ast.value ≤ r.length) :
    (∀ r ∈ ast.policy,
      (((r.take (countUnderscore ast.value)).drop 2).take
          (ast.tokens.length - 2) ≠ [] ↔ 2 < ast.tokens.length))
    ∧ buildConditionalRoleLinks ast s = .ok
      { links := s.links ++ ast.policy.map (fun r =>
          ((r.take (countUnderscore ast.value)).getD 0 "",
            (r.take (countUnderscore ast.value)).getD 1 "",
            if 2 < ast.tokens.length then
              [(r.take (countUnderscore ast.value)).getD 2 ""] else []))
        linkParams := s.linkParams ++ (if 2 < ast.tokens.length then [] else
          ast.policy.map (fun r =>
            (((r.take (countUnderscore ast.value)).getD 0 "",
              (r.take (countUnderscore ast.value)).getD 1 ""),
              (r.take (countUnderscore ast.value)).drop ast.tokens.length)))
        domainLinkParams := s.domainLinkParams ++ (if 2 < ast.tokens.length then
          ast.policy.map (fun r =>
            (((r.take (countUnderscore ast.value)).getD 0 "",
              (r.take (countUnderscore ast.value)).getD 1 "",
              (r.take (countUnderscore ast.value)).getD 2 ""),
              (r.take (countUnderscore ast.value)).drop ast.tokens.length))
          else []) }
    ∧ ∀ rm : RMState, buildRoleLinks ast rm = .ok (rm ++ ast.policy.map (fun r =>
        ((r.take (countUnderscore ast.value)).getD 0 "",
          (r.take (countUnderscore ast.value)).getD 1 "",
          (r.take (countUnderscore ast.value)).drop 2))) := by
  have hc2 : 2 ≤ countUnderscore ast.value := le_trans h2 hct
  have hcnl : ¬ countUnderscore ast.value < 2 := Nat.not_lt.mpr hc2
  refine ⟨?_, ?_, ?_⟩
  · intro r hmem
    have hr : countUnderscore ast.value ≤ r.length := hlen r hmem
    have hlt : (r.take (countUnderscore ast.value)).length
        = countUnderscore ast.value := by
      simp [List.length_take]; omega
    constructor
    · intro hne
      by_contra hle
      have : ast.tokens.length - 2 = 0 := by omega
      simp [this] at hne
    · intro hgt
      have hlen2 : (((r.take (countUnderscore ast.value)).drop 2).take
          (ast.tokens.length - 2)).length = ast.tokens.length - 2 := by
        simp [List.length_take, List.length_drop, hlt]
        omega
      intro hcontra
      rw [hcontra] at hlen2
      simp at hlen2
      omega
  · simp only [buildConditionalRoleLinks, if_neg hcnl]
    exact condLoop_ok ast _ h2 hct ast.policy hlen s
  · intro rm
    simp only [buildRoleLinks, if_neg hcnl]
    exact roleLinksLoop_ok _ ast.policy hlen rm

lemma findIdx?_append_star (p : List Char) (hp : '*' ∉ p) :
    (p ++ ['*']).findIdx? (· == '*') = some p.length := by
  induction p with
  | nil => simp [List.findIdx?]
  | cons c p' ih =>
    have hc : ¬ c = '*' := fun h => hp (h ▸ List.mem_cons_self c p')
    have hp' : '*' ∉ p' := fun h => hp (List.mem_cons_of_mem c h)
    simp only [List.cons_append, List.findIdx?_cons]
    simp [hc, ih hp']

/-- C7: `KeyMatch` is plain equality when the pattern has no `*`, and is
prefix matching when the pattern is a `*`-free prefix followed by `*`. -/
theorem keyMatch_star_semantics (a b p : List Char) :
    ('*' ∉ b → (KeyMatch a b = true ↔ a = b))
    ∧ ('*' ∉ p → b = p ++ ['*'] → (KeyMatch a b = true ↔ p <+: a)) := by
  constructor
  · intro hb
    have hidx : b.findIdx? (· == '*') = none := by
      rw [List.findIdx?_eq_none_iff]
      intro c hc
      simp
      exact fun h => hb (h ▸ hc)
    simp [KeyMatch, hidx]
  · intro hp hbe
    subst hbe
    rw [KeyMatch, findIdx?_append_star p hp]
    simp only [List.take_left]
    by_cases hlen : a.length > p.length
    · simp only [if_pos hlen, beq_iff_eq]
      constructor
      · intro h
        rw [← h]
        exact List.take_prefix _ _
      · intro h
        obtain ⟨t, rfl⟩ := h
        simp
    · simp only [if_neg hlen, beq_iff_eq]
      constructor
      · intro h; exact h ▸ List.prefix_refl p
      · intro h
        have h1 : p.length ≤ a.length := h.length_le
        have h2 : a.length ≤ p.length := Nat.not_lt.mp hlen
        exact (List.prefix_iff_eq_take.mp h ▸ by
          rw [List.take_of_length_le (by omega)] : a = p).symm ▸ rfl

/-- C7 witness: concrete instances discharging each hypothesis. -/
theorem keyMatch_star_semantics_witness :
    (KeyMatch "/foo/bar".data "/foo/*".data = true ↔
      "/foo/".data <+: "/foo/bar".data)
    ∧ (KeyMatch "abc".data "abd".data = true ↔ "abc".data = "abd".data) :=
  ⟨(keyMatch_star_semantics "/foo/bar".data "/foo/*".data "/foo/".data).2
      (by decide) (by decide),
    (keyMatch_star_semantics "abc".data "abd".data []).1 (by decide)⟩

lemma takeWhile_eq_take_of_findIdx? (ch : Char) (b : List Char) :
    ∀ i, b.findIdx? (· == ch) = some i →
      b.takeWhile (fun c => c != ch) = b.take i := by
  induction b with
  | nil => intro i h; simp [List.findIdx?] at h
  | cons c rest ih =>
    intro i h
    rw [List.findIdx?_cons] at h
    by_cases hc : c = ch
    · simp [hc] at h
      simp [← h, List.takeWhile_cons, hc]
    · have hc' : (c == ch) = false := by simp [hc]
      rw [hc'] at h
      simp at h
      obtain ⟨j, hj, rfl⟩ := h
      simp [List.takeWhile_cons, hc', ih j hj, hc]

lemma takeWhile_eq_self_of_not_mem (ch : Char) (b : List Char) (h : ch ∉ b) :
    b.takeWhile (fun c => c != ch) = b := by
  induction b with
  | nil => rfl
  | cons c rest ih =>
    have hc : ¬ c = ch := by rintro rfl; exact h (List.mem_cons_self c rest)
    have hrest : ch ∉ rest := fun hm => h (List.mem_cons_of_mem c hm)
    simp [List.takeWhile_cons, hc, ih hrest]

/-- C10: when the pattern has no `*`, `KeyGet` returns the empty string; and
whenever `KeyGet a b` is non-empty, `KeyMatch a b` holds and the part of `b`
before its first `*` concatenated with `KeyGet a b` reassembles `a`. -/
theorem keyGet_star_prefix_decomposition (a b : List Char) :
    ('*' ∉ b → KeyGet a b = [])
    ∧ (KeyGet a b ≠ [] →
        KeyMatch a b = true ∧
          b.takeWhile (fun c => c != '*') ++ KeyGet a b = a) := by
  constructor
  · intro hb
    have hidx : b.findIdx? (· == '*') = none := by
      rw [List.findIdx?_eq_none_iff]
      intro c hc
      simp
      exact fun h => hb (h ▸ hc)
    simp [KeyGet, hidx]
  · intro hne
    match hidx : b.findIdx? (· == '*') with
    | none => simp only [KeyGet, hidx] at hne; simp at hne
    | some i =>
      simp only [KeyGet, hidx] at hne ⊢
      by_cases hlen : a.length > i
      · by_cases heq : a.take i == b.take i
        · rw [if_pos hlen, if_pos heq] at hne ⊢
          constructor
          · simp only [KeyMatch, hidx]
            rw [if_pos hlen]
            exact heq
          · rw [takeWhile_eq_take_of_findIdx? '*' b i hidx, ← beq_iff_eq.mp heq]
            exact List.take_append_drop i a
        · rw [if_pos hlen, if_neg heq] at hne
          exact absurd rfl hne
      · rw [if_neg hlen] at hne
        exact absurd rfl hne

/-- C10 witness: a concrete non-empty `KeyGet` decomposition. -/
theorem keyGet_star_prefix_decomposition_witness :
    ('*' ∉ "abc".data ∧ KeyGet "xyz".data "abc".data = [])
    ∧ (KeyMatch "/foo/bar".data "/foo/*".data = true ∧
        "/foo/*".data.takeWhile (fun c => c != '*')
          ++ KeyGet "/foo/bar".data "/foo/*".data = "/foo/bar".data) :=
  ⟨⟨by decide,
      (keyGet_star_prefix_decomposition "xyz".data "abc".data).1 (by decide)⟩,
    (keyGet_star_prefix_decomposition "/foo/bar".data "/foo/*".data).2
      (by decide)⟩

/-! ## util/builtin_operators.go : KeyMatch3 / KeyMatch5

`KeyMatch3` and `KeyMatch5` delegate to Go's `regexp` package twice: the
replacement of every `\{[^/]+\}` with `[^/]+` (the variables `keyMatch3Re`
and `keyMatch5Re` hold the same pattern string, so they denote the same
function) and the final anchored `regexp.MatchString`.  The regexp engine is
external to the repository, so both operations are abstracted as function
parameters shared by the two embeddings; `strings.Replace` is concrete. -/

/-- `strings.Replace(s, pat, rep, -1)`: replace all non-overlapping
occurrences of `pat`, scanning left to right. -/
def replaceAll (pat rep : List Char) : List Char → List Char
  | [] => []
  | c :: rest =>
    if h : pat ≠ [] ∧ pat.isPrefixOf (c :: rest) then
      rep ++ replaceAll pat rep ((c :: rest).drop pat.length)
    else c :: replaceAll pat rep rest
termination_by l => l.length
decreasing_by
  · simp only [List.length_drop, List.length_cons]
    have : 1 ≤ pat.length := List.length_pos.mpr h.1
    omega
  · simp

/-- The `key1` preprocessing of `KeyMatch5`: truncate at the first `?`. -/
def stripQuery (key1 : List Char) : List Char :=
  match key1.findIdx? (· == '?') with
  | none => key1
  | some i => key1.take i

/-- Embeds `KeyMatch3` (builtin_operators.go), with the two regexp-engine
operations (`keyMatch3Re.ReplaceAllString(·, "$1[^/]+$2")` and the anchored
`RegexMatch`) as abstract parameters. -/
def KeyMatch3 (braceRe : List Char → List Char)
    (rxMatch : List Char → List Char → Bool) (key1 key2 : List Char) : Bool :=
  let k2 := replaceAll "/*".data "/.*".data key2
  let k2 := braceRe k2
  rxMatch key1 ('^' :: k2 ++ ['$'])

/-- Embeds `KeyMatch5` (builtin_operators.go): strip the query part of
`key1`, then the same pattern pipeline as `KeyMatch3` (with `keyMatch5Re`
equal to `keyMatch3Re`). -/
def KeyMatch5 (braceRe : List Char → List Char)
    (rxMatch : List Char → List Char → Bool) (key1 key2 : List Char) : Bool :=
  let k1 := stripQuery key1
  let k2 := replaceAll "/*".data "/.*".data key2
  let k2 := braceRe k2
  rxMatch k1 ('^' :: k2 ++ ['$'])

/-- C8: for every regexp engine, `KeyMatch5 a b` equals `KeyMatch3 a' b`
where `a'` is `a` truncated at its first `?` (and `a' = a` when `a` has no
`?`). -/
theorem keyMatch5_strips_query_then_keyMatch3
    (braceRe : List Char → List Char)
    (rxMatch : List Char → List Char → Bool) (a b : List Char) :
    KeyMatch5 braceRe rxMatch a b = KeyMatch3 braceRe rxMatch (stripQuery a) b
    ∧ stripQuery a = a.takeWhile (fun c => c != '?') := by
  refine ⟨rfl, ?_⟩
  match hidx : a.findIdx? (· == '?') with
  | none =>
    have hmem : '?' ∉ a := by
      rw [List.findIdx?_eq_none_iff] at hidx
      intro hm
      have := hidx '?' hm
      simp at this
    rw [stripQuery, hidx, takeWhile_eq_self_of_not_mem '?' a hmem]
  | some i =>
    rw [stripQuery, hidx, takeWhile_eq_take_of_findIdx? '?' a i hidx]

/-! ## util/builtin_operators.go : GenerateGFunction / GenerateConditionalGFunction

The govaluate expression functions receive string arguments; the role
manager's `HasLink` is modelled as a function returning a boolean together
with an optional error.  `GenerateGFunction`'s memoization (`sync.Map`) is
modelled as an explicit association list threaded through the call. -/

/-- A role manager exposing `HasLink(name1, name2, domain...)`; the second
component is the (possibly nil) error return. -/
structure RoleManagerH where
  hasLink : String → String → List String → Bool × Option String

/-- The memoization key built by the generated g-function: a zero byte before
every argument. -/
def gFunctionKey (args : List String) : String :=
  String.join (args.map (fun a => "\x00" ++ a))

/-- The `v` computed by the generated g-function: equality for a nil role
manager, otherwise `HasLink` with the error return discarded (`v, _ = ...`),
the third argument (when present) passed as the domain. -/
def gHasLinkValue (r : RoleManagerH) (a b : String) (rest : List String) : Bool :=
  match rest with
  | [] => (r.hasLink a b []).1
  | d :: _ => (r.hasLink a b [d]).1

/-- Embeds one call of the closure returned by `GenerateGFunction`
(builtin_operators.go): result value, returned error, and updated memo table;
`none` is the panic on fewer than two arguments. -/
def gFunctionCall (rm : Option RoleManagerH) (memo : List (String × Bool))
    (args : List String) : Option ((Bool × Option String) × List (String × Bool)) :=
  let key := gFunctionKey args
  match memo.lookup key with
  | some v => some ((v, none), memo)
  | none =>
    match args with
    | a :: b :: rest =>
      let v : Bool := match rm with
        | none => a == b
        | some r => gHasLinkValue r a b rest
      some ((v, none), memo ++ [(key, v)])
    | _ => none

/-- Embeds one call of the closure returned by
`GenerateConditionalGFunction` (builtin_operators.go). -/
def conditionalGFunctionCall (crm : Option RoleManagerH) (args : List String) :
    Option (Bool × Option String) :=
  match args with
  | a :: b :: rest =>
    let v : Bool := match crm with
      | none => a == b
      | some r => gHasLinkValue r a b rest
    some (v, none)
  | _ => none

/-- C9: the generated g-functions never return a non-nil error on string
arguments; a `HasLink` error is discarded and only the boolean is used (and
memoized by `GenerateGFunction`); with a nil role manager the result is the
string equality of the first two arguments. -/
theorem gFunction_discards_errors (rm crm : Option RoleManagerH)
    (memo : List (String × Bool)) (a b : String) (rest : List String) :
    (∀ out, gFunctionCall rm memo (a :: b :: rest) = some out → out.1.2 = none)
    ∧ (∀ out, conditionalGFunctionCall crm (a :: b :: rest) = some out →
        out.2 = none)
    ∧ (memo.lookup (gFunctionKey (a :: b :: rest)) = none →
        gFunctionCall none memo (a :: b :: rest)
          = some (((a == b), none),
              memo ++ [(gFunctionKey (a :: b :: rest), (a == b))])
        ∧ ∀ r, gFunctionCall (some r) memo (a :: b :: rest)
            = some ((gHasLinkValue r a b rest, none),
                memo ++ [(gFunctionKey (a :: b :: rest),
                  gHasLinkValue r a b rest)]))
    ∧ conditionalGFunctionCall none (a :: b :: rest) = some ((a == b), none)
    ∧ ∀ r, conditionalGFunctionCall (some r) (a :: b :: rest)
        = some (gHasLinkValue r a b rest, none) := by
  refine ⟨?_, ?_, ?_, rfl, fun r => rfl⟩
  · intro out hout
    match hm : (memo.lookup (gFunctionKey (a :: b :: rest))) with
    | some v =>
      simp only [gFunctionCall, hm] at hout
      cases hout
      rfl
    | none =>
      simp only [gFunctionCall, hm] at hout
      cases rm <;> simp at hout <;> rw [← hout]
  · intro out hout
    simp only [conditionalGFunctionCall] at hout
    cases hout
    rfl
  · intro hmiss
    exact ⟨by simp only [gFunctionCall, hmiss], fun r => by
      simp only [gFunctionCall, hmiss]⟩

/-- C9 witness: a role manager whose `HasLink` reports an error still yields
a nil-error `true` from the generated functions; a nil manager compares
arguments. -/
theorem gFunction_discards_errors_witness :
    gFunctionCall (some ⟨fun _ _ _ => (true, some "hasLink failed")⟩) []
        ["alice", "admin"]
      = some ((true, none), [(gFunctionKey ["alice", "admin"], true)])
    ∧ conditionalGFunctionCall none ["alice", "alice"] = some (true, none) := by
  have h := gFunction_discards_errors
    (some ⟨fun _ _ _ => (true, some "hasLink failed")⟩) none [] "alice" "admin" []
  have h2 := gFunction_discards_errors none none [] "alice" "alice" []
  exact ⟨(h.2.2.1 rfl).2 _, h2.2.2.2.1⟩

/-! ## util/builtin_operators.go : TimeMatch

`time.Parse("2006-01-02 15:04:05", s)` yields a whole-second instant;
`time.Now()` carries nanoseconds.  A parsed time is a calendar tuple, an
instant is the strictly monotone key of such a tuple plus a nanosecond
component, and Go's `Time.After` / `Time.Before` become the strict
comparisons `instAfter` / `instBefore` on instants. -/

/-- A calendar date-time as produced by parsing the reference layout. -/
structure DateTime where
  year : Nat
  month : Nat
  day : Nat
  hour : Nat
  minute : Nat
  second : Nat
deriving DecidableEq

def isLeapYear (y : Nat) : Bool :=
  (y % 4 == 0 && y % 100 != 0) || y % 400 == 0

def daysInMonth (y m : Nat) : Nat :=
  if m == 2 then (if isLeapYear y then 29 else 28)
  else if m == 4 || m == 6 || m == 9 || m == 11 then 30
  else 31

def digitVal (c : Char) : Nat := c.toNat - 48

/-- `time.Parse("2006-01-02 15:04:05", s)`: the fixed-width layout with
range validation of month, day (month length, leap years), hour, minute and
second; `none` is Go's parse error. -/
def parseDateTime (s : String) : Option DateTime :=
  match s.data with
  | [y1, y2, y3, y4, '-', mo1, mo2, '-', d1, d2, ' ',
      h1, h2, ':', mi1, mi2, ':', se1, se2] =>
    if [y1, y2, y3, y4, mo1, mo2, d1, d2, h1, h2, mi1, mi2, se1, se2].all
        Char.isDigit then
      let y := ((digitVal y1 * 10 + digitVal y2) * 10 + digitVal y3) * 10
        + digitVal y4
      let mo := digitVal mo1 * 10 + digitVal mo2
      let d := digitVal d1 * 10 + digitVal d2
      let h := digitVal h1 * 10 + digitVal h2
      let mi := digitVal mi1 * 10 + digitVal mi2
      let se := digitVal se1 * 10 + digitVal se2
      if 1 ≤ mo ∧ mo ≤ 12 ∧ 1 ≤ d ∧ d ≤ daysInMonth y mo ∧
          h ≤ 23 ∧ mi ≤ 59 ∧ se ≤ 59 then
        some ⟨y, mo, d, h, mi, se⟩
      else none
    else none
  | _ => none

/-- Strictly monotone key of a calendar tuple (fields stay below their
radixes), so key order is chronological order. -/
def dtKey (t : DateTime) : Nat :=
  ((((t.year * 13 + t.month) * 32 + t.day) * 24 + t.hour) * 60 + t.minute)
    * 60 + t.second

/-- An absolute instant: whole-second key plus nanoseconds, as carried by
`time.Now()`. -/
structure Instant where
  key : Nat
  nano : Nat
deriving DecidableEq

/-- `now.After(t)` for a whole-second `t`. -/
def instAfter (now : Instant) (t : DateTime) : Bool :=
  dtKey t < now.key || (dtKey t == now.key && 0 < now.nano)

/-- `now.Before(t)` for a whole-second `t`. -/
def instBefore (now : Instant) (t : DateTime) : Bool :=
  now.key < dtKey t

/-- The `endTime` block of `TimeMatch`. -/
def timeMatchEndCheck (now : Instant) (endTime : String) : Except String Bool :=
  if endTime ≠ "_" then
    match parseDateTime endTime with
    | none => .error "parsing time failed"
    | some e => if ¬ instBefore now e then .ok false else .ok true
  else .ok true

/-- Embeds `TimeMatch` (builtin_operators.go): the `startTime` block, then
the `endTime` block; `_` skips a bound. -/
def TimeMatch (now : Instant) (startTime endTime : String) : Except String Bool :=
  if startTime ≠ "_" then
    match parseDateTime startTime with
    | none => .error "parsing time failed"
    | some st =>
      if ¬ instAfter now st then .ok false else timeMatchEndCheck now endTime
  else timeMatchEndCheck now endTime

lemma timeMatchEndCheck_ok (now : Instant) (e : String)
    (he : e = "_" ∨ (parseDateTime e).isSome = true) :
    timeMatchEndCheck now e
      = .ok ((parseDateTime e).all (fun t => instBefore now t)) := by
  rcases he with rfl | hsome
  · have hnone : parseDateTime "_" = none := rfl
    simp [timeMatchEndCheck, hnone]
  · obtain ⟨t, ht⟩ := Option.isSome_iff_exists.mp hsome
    by_cases hne : e = "_"
    · subst hne
      exact absurd ht (by simp [show parseDateTime "_" = none from rfl])
    · by_cases hb : instBefore now t
      · simp [timeMatchEndCheck, hne, ht, hb]
      · simp [timeMatchEndCheck, hne, ht, hb]

/-- C3 counterexample: `"2026-01-01 00:00:00"` parses, and at the instant
exactly equal to that start bound (same key, zero nanoseconds) — a time that
lies in the claimed half-open interval `[start, end)` — `TimeMatch` returns
`ok false`, because the code demands `now.After(start)` strictly; also, when
the current time is not after `start`, an unparsable `end` bound returns
`ok false` instead of the claimed error. -/
theorem timeMatch_at_start_counterexample :
    parseDateTime "2026-01-01 00:00:00" = some ⟨2026, 1, 1, 0, 0, 0⟩
    ∧ TimeMatch ⟨dtKey ⟨2026, 1, 1, 0, 0, 0⟩, 0⟩ "2026-01-01 00:00:00" "_"
        = .ok false
    ∧ TimeMatch ⟨0, 0⟩ "2026-01-01 00:00:00" "not a time" = .ok false := by
  exact ⟨by decide, rfl, rfl⟩

/-- C3 amended: for bounds that are `_` or parsable, `TimeMatch` returns
`true` iff the current instant is strictly after `startTime` (when present)
and strictly before `endTime` (when present); an unparsable `startTime`
yields an error, and an unparsable `endTime` yields an error provided the
start check passes (`startTime` is `_` or strictly before now). -/
theorem timeMatch_strict_interval :
    (∀ (now : Instant) (s e : String),
      (s = "_" ∨ (parseDateTime s).isSome = true) →
      (e = "_" ∨ (parseDateTime e).isSome = true) →
      TimeMatch now s e
        = .ok ((parseDateTime s).all (fun t => instAfter now t)
            && (parseDateTime e).all (fun t => instBefore now t)))
    ∧ (∀ (now : Instant) (s e : String), s ≠ "_" → parseDateTime s = none →
        TimeMatch now s e = .error "parsing time failed")
    ∧ (∀ (now : Instant) (s e : String),
        (s = "_" ∨ ∃ t, parseDateTime s = some t ∧ instAfter now t = true) →
        e ≠ "_" → parseDateTime e = none →
        TimeMatch now s e = .error "parsing time failed") := by
  refine ⟨?_, ?_, ?_⟩
  · intro now s e hs he
    rcases hs with rfl | hsome
    · have hnone : parseDateTime "_" = none := rfl
      simp only [TimeMatch, ne_eq, not_true_eq_false, if_false, hnone,
        Option.all_none, Bool.true_and]
      exact timeMatchEndCheck_ok now e he
    · obtain ⟨t, ht⟩ := Option.isSome_iff_exists.mp hsome
      by_cases hne : s = "_"
      · subst hne
        exact absurd ht (by simp [show parseDateTime "_" = none from rfl])
      · by_cases ha : instAfter now t
        · simp only [TimeMatch, if_pos hne, ht, ha, not_true_eq_false,
            if_false, Option.all_some, Bool.true_and,
            timeMatchEndCheck_ok now e he]
        · simp [TimeMatch, hne, ht, ha]
  · intro now s e hne hnone
    simp [TimeMatch, hne, hnone]
  · intro now s e hs hne hnone
    rcases hs with rfl | ⟨t, ht, ha⟩
    · simp [TimeMatch, timeMatchEndCheck, hne, hnone]
    · by_cases hsne : s = "_"
      · subst hsne
        exact absurd ht (by simp [show parseDateTime "_" = none from rfl])
      · simp [TimeMatch, hsne, ht, ha, timeMatchEndCheck, hne, hnone]

/-- C3 amended witness: concrete instances for the three conjuncts. -/
theorem timeMatch_strict_interval_witness :
    TimeMatch ⟨dtKey ⟨2026, 1, 1, 0, 0, 0⟩, 1⟩ "2026-01-01 00:00:00" "_"
      = .ok true
    ∧ TimeMatch ⟨0, 0⟩ "not a time" "_" = .error "parsing time failed"
    ∧ TimeMatch ⟨0, 0⟩ "_" "not a time" = .error "parsing time failed" := by
  refine ⟨?_, ?_, ?_⟩
  · have h := timeMatch_strict_interval.1 ⟨dtKey ⟨2026, 1, 1, 0, 0, 0⟩, 1⟩
      "2026-01-01 00:00:00" "_" (Or.inr (by decide)) (Or.inl rfl)
    rw [h]
    rfl
  · exact timeMatch_strict_interval.2.1 ⟨0, 0⟩ "not a time" "_"
      (by decide) (by decide)
  · exact timeMatch_strict_interval.2.2 ⟨0, 0⟩ "_" "not a time"
      (Or.inl rfl) (by decide) (by decide)

/-! ## model / persist : the policy store and the file adapter

`model.Model` is `map[string]map[string]*Assertion`; it is modelled as a
nested association list whose order is the (arbitrary but fixed) iteration
order of the Go maps.  `Option` results stand for Go panics (nil-map /
out-of-range accesses). -/

abbrev ModelMap := List (String × List (String × Assertion))

/-- `model[sec]` as an iterable collection; a missing section is the nil
map, which iterates over nothing. -/
def lookupSec (m : ModelMap) (sec : String) : List (String × Assertion) :=
  (m.lookup sec).getD []

/-- `model[sec][key]`. -/
def lookupAst (m : ModelMap) (sec key : String) : Option Assertion :=
  (lookupSec m sec).lookup key

/-- Replace the assertion stored at `(sec, key)`. -/
def updateAst (m : ModelMap) (sec key : String) (a : Assertion) : ModelMap :=
  m.map (fun sp =>
    if sp.1 = sec then
      (sp.1, sp.2.map (fun ka => if ka.1 = key then (ka.1, a) else ka))
    else sp)

/-- Modelled from the spec: `model.AddPolicy` (model/policy.go, not under
src/) — "if `canonical(rule) ∈ policyIndex` return `(false, nil)`; else
append and index"; the canonical form keyed here by the rule itself.  `none`
is the panic on a missing assertion. -/
def modelAddPolicy (m : ModelMap) (sec key : String) (rule : List String) :
    Option (Bool × ModelMap) :=
  match lookupAst m sec key with
  | none => none
  | some ast =>
    if (ast.policyMap.lookup rule).isSome then some (false, m)
    else some (true, updateAst m sec key
      { ast with
        policy := ast.policy ++ [rule]
        policyMap := ast.policyMap ++ [(rule, ast.policy.length)] })

/-- Modelled from the spec: `model.HasPolicyEx` (model/policy.go, not under
src/) — the read query on the uniqueness index of the `(sec, key)`
assertion. -/
def modelHasPolicyEx (m : ModelMap) (sec key : String) (rule : List String) :
    Option Bool :=
  (lookupAst m sec key).map (fun ast => (ast.policyMap.lookup rule).isSome)

/-- Embeds `persist.LoadPolicyArray`: `sec` is the first character of the
first field, the key is the whole first field, the body the remaining
fields; a duplicate rule is skipped. -/
def LoadPolicyArray (rule : List String) (m : ModelMap) : Option ModelMap :=
  match rule with
  | [] => none
  | key :: body =>
    if key = "" then none
    else
      let sec := String.mk (key.data.take 1)
      match modelHasPolicyEx m sec key body with
      | none => none
      | some true => some m
      | some false => (modelAddPolicy m sec key body).map (fun p => p.2)

/-- Go's `unicode.IsSpace` over the characters the csv reader trims. -/
def goIsSpace (c : Char) : Bool :=
  c == ' ' || c == '\t' || c == '\n' || c == '\x0b' || c == '\x0c' ||
    c == '\r' || c == '\u0085' || c == '\u00A0'

/-- Modelled from the spec: the `encoding/csv` read of one quote-free line —
"Fields are comma-separated with leading whitespace trimmed per field". -/
def csvParseSimple (line : String) : List String :=
  (line.data.splitOn ',').map (fun f => String.mk (f.dropWhile goIsSpace))

/-- Embeds `persist.LoadPolicyLine`: empty lines and `#` comment lines leave
the model unchanged; any other line is csv-parsed and loaded. -/
def LoadPolicyLine (line : String) (m : ModelMap) : Option ModelMap :=
  if line = "" || "#".data.isPrefixOf line.data then some m
  else LoadPolicyArray (csvParseSimple line) m

/-- Modelled from the spec: `util.ArrayToString` (util/util.go, not under
src/) — the fields joined by `", "`, matching the documented storage format
`p, alice, data1, read`. -/
def arrayToString (rule : List String) : List Char :=
  List.intercalate [',', ' '] (rule.map String.data)

/-- One output line of `SavePolicy`: `ptype + ", " + ArrayToString(rule)`. -/
def policyLines (m : ModelMap) (sec : String) : List (List Char) :=
  (lookupSec m sec).flatMap (fun pa =>
    pa.2.policy.map (fun rule => pa.1.data ++ [',', ' '] ++ arrayToString rule))

/-- The buffer written by `SavePolicy` before trimming: every `p`-section
line then every `g`-section line, each followed by a newline. -/
def savePolicyText (m : ModelMap) : List Char :=
  (((policyLines m "p") ++ (policyLines m "g")).map (fun l => l ++ ['\n'])).flatten

/-- `strings.TrimRight(s, "\n")`. -/
def dropTrailingNewlines (l : List Char) : List Char :=
  (l.reverse.dropWhile (· == '\n')).reverse

/-- The file adapter (file-adapter/adapter.go). -/
structure Adapter where
  filePath : String

/-- Embeds `Adapter.SavePolicy`, returning the text handed to
`savePolicyFile`. -/
def SavePolicy (a : Adapter) (m : ModelMap) : Except String (List Char) :=
  if a.filePath = "" then .error "invalid file path, file path cannot be empty"
  else .ok (dropTrailingNewlines (savePolicyText m))

/-- Newline-separated concatenation with no trailing newline: the claimed
shape of the saved text. -/
def intercalateNL : List (List Char) → List Char
  | [] => []
  | [l] => l
  | l :: ls => l ++ '\n' :: intercalateNL ls

lemma head?_dropWhile_not (p : Char → Bool) :
    ∀ (l : List Char) (c : Char), (l.dropWhile p).head? = some c → p c = false := by
  intro l
  induction l with
  | nil => intro c h; simp [List.dropWhile] at h
  | cons a rest ih =>
    intro c h
    rw [List.dropWhile_cons] at h
    by_cases hp : p a
    · exact ih c (by simpa [hp] using h)
    · simp [hp] at h
      subst h
      simpa using hp

lemma dropTrailingNewlines_getLast? (l : List Char) :
    (dropTrailingNewlines l).getLast? ≠ some '\n' := by
  unfold dropTrailingNewlines
  rw [List.getLast?_reverse]
  intro hcontra
  have := head?_dropWhile_not (· == '\n') l.reverse '\n' hcontra
  simp at this

lemma dropTrailingNewlines_append (x y : List Char)
    (hy : dropTrailingNewlines y ≠ []) :
    dropTrailingNewlines (x ++ y) = x ++ dropTrailingNewlines y := by
  unfold dropTrailingNewlines at hy ⊢
  rw [List.reverse_append, List.dropWhile_append]
  have hne : ¬ (y.reverse.dropWhile (· == '\n')).isEmpty = true := by
    intro hEmpty
    rw [List.isEmpty_iff] at hEmpty
    simp [hEmpty] at hy
  rw [if_neg hne]
  simp

lemma no_nl_dropTrailing (l : List Char) (h : '\n' ∉ l) :
    dropTrailingNewlines l = l := by
  unfold dropTrailingNewlines
  have hd : l.reverse.dropWhile (· == '\n') = l.reverse := by
    rw [List.dropWhile_eq_self_iff]
    intro hl
    simp only [beq_iff_eq]
    intro heq
    exact h (heq ▸ List.mem_reverse.mp (List.get_mem _ _ _))
  rw [hd, List.reverse_reverse]

lemma dropTrailing_append_nl (l : List Char) :
    dropTrailingNewlines (l ++ ['\n']) = dropTrailingNewlines l := by
  unfold dropTrailingNewlines
  rw [List.reverse_append]
  simp [List.dropWhile_cons]

lemma intercalateNL_ne_nil (l : List Char) (ls : List (List Char))
    (hl : l ≠ []) : intercalateNL (l :: ls) ≠ [] := by
  cases ls with
  | nil => simpa [intercalateNL] using hl
  | cons l' rest => simp [intercalateNL, hl]

lemma dropTrailing_flatten_eq_intercalateNL :
    ∀ ls : List (List Char), (∀ l ∈ ls, l ≠ [] ∧ '\n' ∉ l) →
      dropTrailingNewlines ((ls.map (fun l => l ++ ['\n'])).flatten)
        = intercalateNL ls := by
  intro ls
  induction ls with
  | nil => intro _; rfl
  | cons l ls ih =>
    intro h
    have hl := h l (by simp)
    cases ls with
    | nil =>
      simp only [List.map_cons, List.map_nil, List.flatten_cons,
        List.flatten_nil, List.append_nil]
      rw [dropTrailing_append_nl, no_nl_dropTrailing l hl.2]
      rfl
    | cons l' rest =>
      have hrest : ∀ x ∈ l' :: rest, x ≠ [] ∧ '\n' ∉ x := by
        intro x hx
        exact h x (by simp [hx])
      have hl' := hrest l' (by simp)
      have hIH := ih hrest
      have hne : dropTrailingNewlines
          (((l' :: rest).map (fun x => x ++ ['\n'])).flatten) ≠ [] := by
        rw [hIH]
        exact intercalateNL_ne_nil l' rest hl'.1
      rw [List.map_cons, List.flatten_cons]
      rw [dropTrailingNewlines_append _ _ hne, hIH]
      simp [intercalateNL]

/-- C4: with a non-empty file path, `SavePolicy` writes one line per stored
rule in the form `key, field1, field2, ...`, all `p`-section lines before all
`g`-section lines, each assertion's rules in stored order, the lines joined
by single newlines; and the written text never ends in a newline. -/
theorem savePolicy_line_order_no_trailing_newline (a : Adapter) (m : ModelMap)
    (hpath : a.filePath ≠ "") :
    ((∀ l ∈ policyLines m "p" ++ policyLines m "g", l ≠ [] ∧ '\n' ∉ l) →
      SavePolicy a m
        = .ok (intercalateNL (policyLines m "p" ++ policyLines m "g")))
    ∧ ∀ t, SavePolicy a m = .ok t → t.getLast? ≠ some '\n' := by
  constructor
  · intro hlines
    simp only [SavePolicy, if_neg hpath, savePolicyText]
    rw [dropTrailing_flatten_eq_intercalateNL _ hlines]
  · intro t ht
    simp only [SavePolicy, if_neg hpath, Except.ok.injEq] at ht
    rw [← ht]
    exact dropTrailingNewlines_getLast? _

/-- C4 witness: a two-rule `p` assertion and a one-rule `g` assertion are
saved as three `", "`-joined lines with no trailing newline. -/
theorem savePolicy_line_order_witness :
    SavePolicy ⟨"policy.csv"⟩
        [("p", [("p", ⟨"p", "sub, obj, act", [], [["alice", "data1", "read"],
            ["bob", "data2", "write"]], []⟩)]),
          ("g", [("g", ⟨"g", "_, _", [], [["alice", "admin"]], []⟩)])]
      = .ok "p, alice, data1, read\np, bob, data2, write\ng, alice, admin".data := by
  have h := (savePolicy_line_order_no_trailing_newline ⟨"policy.csv"⟩
    [("p", [("p", ⟨"p", "sub, obj, act", [], [["alice", "data1", "read"],
        ["bob", "data2", "write"]], []⟩)]),
      ("g", [("g", ⟨"g", "_, _", [], [["alice", "admin"]], []⟩)])]
    (by decide)).1 (by decide)
  rw [h]
  rfl

lemma lookup_map_replace (key : String) (a : Assertion) :
    ∀ (asts : List (String × Assertion)) (ast : Assertion),
      asts.lookup key = some ast →
      (asts.map (fun ka => if ka.1 = key then (ka.1, a) else ka)).lookup key
        = some a := by
  intro asts
  induction asts with
  | nil => intro ast h; simp [List.lookup] at h
  | cons ka rest ih =>
    intro ast h
    obtain ⟨k, v⟩ := ka
    by_cases hk : k = key
    · subst hk
      simp [List.lookup_cons]
    · rw [List.lookup_cons] at h
      have hkk : (key == k) = false := by
        simp only [beq_eq_false_iff_ne, ne_eq]
        exact fun he => hk he.symm
      rw [hkk] at h
      simp only [List.map_cons, if_neg hk, List.lookup_cons, hkk]
      exact ih ast h

lemma lookupAst_updateAst (sec key : String) (a : Assertion) :
    ∀ (m : ModelMap) (ast : Assertion), lookupAst m sec key = some ast →
      lookupAst (updateAst m sec key a) sec key = some a := by
  intro m
  induction m with
  | nil => intro ast h; simp [lookupAst, lookupSec, List.lookup] at h
  | cons sp m' ih =>
    intro ast h
    obtain ⟨s, asts⟩ := sp
    by_cases hs : s = sec
    · subst hs
      simp only [lookupAst, lookupSec, List.lookup_cons, beq_self_eq_true,
        Option.getD_some] at h
      simp [updateAst, lookupAst, lookupSec, List.lookup_cons]
      exact lookup_map_replace key a asts ast h
    · have hss : (sec == s) = false := by
        simp only [beq_eq_false_iff_ne, ne_eq]
        exact fun he => hs he.symm
      simp only [lookupAst, lookupSec, List.lookup_cons, hss] at h
      simp only [updateAst, List.map_cons, if_neg hs, lookupAst, lookupSec,
        List.lookup_cons, hss]
      exact ih ast h

lemma lookup_append_of_none {β : Type} (k : List String)
    (l1 l2 : List (List String × β)) (h : l1.lookup k = none) :
    (l1 ++ l2).lookup k = l2.lookup k := by
  induction l1 with
  | nil => rfl
  | cons p rest ih =>
    obtain ⟨pk, pv⟩ := p
    rw [List.lookup_cons] at h
    match hkk : k == pk with
    | true => rw [hkk] at h; cases h
    | false =>
      rw [hkk] at h
      simp only [List.cons_append, List.lookup_cons, hkk]
      exact ih h

/-- C6 helper: one successful `LoadPolicyArray` makes the rule present, so a
second identical load is the identity. -/
lemma loadPolicyArray_idem (rule : List String) (m m' : ModelMap)
    (h : LoadPolicyArray rule m = some m') :
    LoadPolicyArray rule m' = some m' := by
  match rule with
  | [] => simp [LoadPolicyArray] at h
  | key :: body =>
    by_cases hkey : key = ""
    · simp [LoadPolicyArray, hkey] at h
    · simp only [LoadPolicyArray, if_neg hkey] at h
      match hex : modelHasPolicyEx m (String.mk (key.data.take 1)) key body with
      | none => rw [hex] at h; simp at h
      | some true =>
        rw [hex] at h
        simp only at h
        have hmm : m = m' := by cases h; rfl
        subst hmm
        simp only [LoadPolicyArray, if_neg hkey, hex]
      | some false =>
        rw [hex] at h
        simp only at h
        have hast : ∃ ast, lookupAst m (String.mk (key.data.take 1)) key
            = some ast := by
          rcases hl : lookupAst m (String.mk (key.data.take 1)) key with _ | ast
          · simp [modelHasPolicyEx, hl] at hex
          · exact ⟨ast, rfl⟩
        obtain ⟨ast, hl⟩ := hast
        have hmiss : ast.policyMap.lookup body = none := by
          rcases hlk : ast.policyMap.lookup body with _ | v
          · rfl
          · exfalso
            simp [modelHasPolicyEx, hl, hlk] at hex
        simp only [modelAddPolicy, hl, hmiss, Option.isSome_none,
          Bool.false_eq_true, if_false, Option.map_some] at h
        have hm' : m' = updateAst m (String.mk (key.data.take 1)) key
            { ast with
              policy := ast.policy ++ [body]
              policyMap := ast.policyMap ++ [(body, ast.policy.length)] } := by
          cases h; rfl
        subst hm'
        simp only [LoadPolicyArray, if_neg hkey]
        have hl' := lookupAst_updateAst (String.mk (key.data.take 1)) key
          { ast with
            policy := ast.policy ++ [body]
            policyMap := ast.policyMap ++ [(body, ast.policy.length)] } m ast hl
        have hfound : (ast.policyMap ++ [(body, ast.policy.length)]).lookup body
            = some ast.policy.length := by
          rw [lookup_append_of_none body _ _ hmiss]
          simp [List.lookup_cons]
        simp [modelHasPolicyEx, hl', hfound]

/-- C6: adding a rule already present in the assertion's index is a no-op
reporting `(false, nil)` with the model unchanged, and loading the identical
policy line twice produces the same model state as loading it once. -/
theorem addPolicy_duplicate_noop :
    (∀ (m : ModelMap) (sec key : String) (rule : List String),
      modelHasPolicyEx m sec key rule = some true →
      modelAddPolicy m sec key rule = some (false, m))
    ∧ (∀ (line : String) (m m' : ModelMap),
        LoadPolicyLine line m = some m' → LoadPolicyLine line m' = some m') := by
  constructor
  · intro m sec key rule hdup
    have hast : ∃ ast, lookupAst m sec key = some ast ∧
        (ast.policyMap.lookup rule).isSome = true := by
      rcases hl : lookupAst m sec key with _ | ast
      · simp [modelHasPolicyEx, hl] at hdup
      · refine ⟨ast, rfl, ?_⟩
        simpa [modelHasPolicyEx, hl] using hdup
    obtain ⟨ast, hl, hsome⟩ := hast
    simp [modelAddPolicy, hl, hsome]
  · intro line m m' h
    by_cases hskip : line = "" || "#".data.isPrefixOf line.data
    · rw [LoadPolicyLine, if_pos hskip] at h
      have : m = m' := by cases h; rfl
      subst this
      rw [LoadPolicyLine, if_pos hskip]
    · rw [LoadPolicyLine, if_neg hskip] at h
      rw [LoadPolicyLine, if_neg hskip]
      exact loadPolicyArray_idem _ m m' h

/-- C6 witness: loading `"p, alice, data1, read"` into a fresh `p` assertion
and re-loading it, plus a duplicate `modelAddPolicy` returning `(false, m)`
on the resulting state. -/
theorem addPolicy_duplicate_noop_witness :
    LoadPolicyLine "p, alice, data1, read"
        [("p", [("p", ⟨"p", "sub, obj, act", [], [["alice", "data1", "read"]],
          [(["alice", "data1", "read"], 0)]⟩)])]
      = some [("p", [("p", ⟨"p", "sub, obj, act", [],
          [["alice", "data1", "read"]], [(["alice", "data1", "read"], 0)]⟩)])]
    ∧ modelAddPolicy
        [("p", [("p", ⟨"p", "sub, obj, act", [], [["alice", "data1", "read"]],
          [(["alice", "data1", "read"], 0)]⟩)])] "p" "p"
        ["alice", "data1", "read"]
      = some (false, [("p", [("p", ⟨"p", "sub, obj, act", [],
          [["alice", "data1", "read"]], [(["alice", "data1", "read"], 0)]⟩)])]) := by
  constructor
  · exact addPolicy_duplicate_noop.2 "p, alice, data1, read"
      [("p", [("p", ⟨"p", "sub, obj, act", [], [], []⟩)])]
      [("p", [("p", ⟨"p", "sub, obj, act", [], [["alice", "data1", "read"]],
        [(["alice", "data1", "read"], 0)]⟩)])] (by decide)
  · exact addPolicy_duplicate_noop.1
      [("p", [("p", ⟨"p", "sub, obj, act", [], [["alice", "data1", "read"]],
        [(["alice", "data1", "read"], 0)]⟩)])] "p" "p"
      ["alice", "data1", "read"] (by decide)

/-- C5: an empty or `#`-prefixed line leaves the model unchanged; any other
line is csv-parsed (fields split on commas, leading whitespace trimmed per
field) and its rule is stored under the section named by the first character
of the first field, under the key equal to the whole first field, with the
remaining fields as the rule body (skipped when already present). -/
theorem loadPolicyLine_comment_and_sections (m : ModelMap) (line k : String)
    (body : List String) (ast : Assertion) :
    ((line = "" ∨ "#".data.isPrefixOf line.data = true) →
      LoadPolicyLine line m = some m)
    ∧ (¬ (line = "" ∨ "#".data.isPrefixOf line.data = true) →
        LoadPolicyLine line m
          = LoadPolicyArray ((line.data.splitOn ',').map
              (fun f => String.mk (f.dropWhile goIsSpace))) m)
    ∧ (k ≠ "" → lookupAst m (String.mk (k.data.take 1)) k = some ast →
        ast.policyMap.lookup body = none →
        LoadPolicyArray (k :: body) m
          = some (updateAst m (String.mk (k.data.take 1)) k
              { ast with
                policy := ast.policy ++ [body]
                policyMap := ast.policyMap ++ [(body, ast.policy.length)] }))
    ∧ (k ≠ "" → lookupAst m (String.mk (k.data.take 1)) k = some ast →
        (ast.policyMap.lookup body).isSome = true →
        LoadPolicyArray (k :: body) m = some m) := by
  refine ⟨?_, ?_, ?_, ?_⟩
  · intro hc
    have hb : (line = "" || "#".data.isPrefixOf line.data) = true := by
      rcases hc with h | h <;> simp [h]
    rw [LoadPolicyLine, if_pos hb]
  · intro hc
    have hb : ¬ (line = "" || "#".data.isPrefixOf line.data) = true := by
      simp only [Bool.or_eq_true, decide_eq_true_eq]
      intro hx
      exact hc hx
    rw [LoadPolicyLine, if_neg hb]
    rfl
  · intro hk hl hmiss
    simp only [LoadPolicyArray, if_neg hk]
    simp [modelHasPolicyEx, hl, hmiss, modelAddPolicy]
  · intro hk hl hsome
    simp only [LoadPolicyArray, if_neg hk]
    simp [modelHasPolicyEx, hl, hsome]

/-- C5 witness: a comment line and an empty line are no-ops; a csv line is
parsed and its rule stored under `(section, key) = ("p", "p")` with the
trimmed remaining fields as body; a duplicate is skipped. -/
theorem loadPolicyLine_comment_and_sections_witness :
    LoadPolicyLine "# a comment" [] = some []
    ∧ LoadPolicyLine "" [] = some []
    ∧ LoadPolicyLine "p, alice, data1, read"
        [("p", [("p", ⟨"p", "sub, obj, act", [], [], []⟩)])]
      = LoadPolicyArray ["p", "alice", "data1", "read"]
          [("p", [("p", ⟨"p", "sub, obj, act", [], [], []⟩)])]
    ∧ LoadPolicyArray ["p", "alice", "data1", "read"]
        [("p", [("p", ⟨"p", "sub, obj, act", [], [], []⟩)])]
      = some [("p", [("p", ⟨"p", "sub, obj, act", [],
          [["alice", "data1", "read"]], [(["alice", "data1", "read"], 0)]⟩)])]
    ∧ LoadPolicyArray ["p", "alice", "data1", "read"]
        [("p", [("p", ⟨"p", "sub, obj, act", [], [["alice", "data1", "read"]],
          [(["alice", "data1", "read"], 0)]⟩)])]
      = some [("p", [("p", ⟨"p", "sub, obj, act", [],
          [["alice", "data1", "read"]], [(["alice", "data1", "read"], 0)]⟩)])] := by
  refine ⟨?_, ?_, ?_, ?_, ?_⟩
  · exact (loadPolicyLine_comment_and_sections [] "# a comment" "" []
      ⟨"", "", [], [], []⟩).1 (Or.inr (by decide))
  · exact (loadPolicyLine_comment_and_sections [] "" "" []
      ⟨"", "", [], [], []⟩).1 (Or.inl rfl)
  · have h := (loadPolicyLine_comment_and_sections
      [("p", [("p", ⟨"p", "sub, obj, act", [], [], []⟩)])]
      "p, alice, data1, read" "" [] ⟨"", "", [], [], []⟩).2.1
      (by decide)
    rw [h]
    rfl
  · have h := (loadPolicyLine_comment_and_sections
      [("p", [("p", ⟨"p", "sub, obj, act", [], [], []⟩)])] ""
      "p" ["alice", "data1", "read"]
      ⟨"p", "sub, obj, act", [], [], []⟩).2.2.1
      (by decide) (by decide) (by decide)
    rw [h]
    rfl
  · exact (loadPolicyLine_comment_and_sections
      [("p", [("p", ⟨"p", "sub, obj, act", [], [["alice", "data1", "read"]],
        [(["alice", "data1", "read"], 0)]⟩)])] ""
      "p" ["alice", "data1", "read"]
      ⟨"p", "sub, obj, act", [], [["alice", "data1", "read"]],
        [(["alice", "data1", "read"], 0)]⟩).2.2.2
      (by decide) (by decide) (by decide)

/-- C2 witness: a conditional `g`-assertion with three tokens and one
parameter position links `alice → admin` under domain `dom1` and records
`["p1"]` as the link-condition parameters. -/
theorem buildConditionalRoleLinks_edges_and_params_witness :
    buildConditionalRoleLinks
        ⟨"g", "_, _, _, _", ["g_user", "g_role", "g_dom"],
          [["alice", "admin", "dom1", "p1"]], []⟩ ⟨[], [], []⟩
      = .ok ⟨[("alice", "admin", ["dom1"])], [],
          [(("alice", "admin", "dom1"), ["p1"])]⟩ := by
  have h := (buildConditionalRoleLinks_edges_and_params
    ⟨"g", "_, _, _, _", ["g_user", "g_role", "g_dom"],
      [["alice", "admin", "dom1", "p1"]], []⟩ ⟨[], [], []⟩
    (by decide) (by decide) (by decide)).2.1
  rw [h]
  rfl

end Casbin
